import Mathlib

/-!
Shallow embedding of the `nbt.rs` crate (files `src/lib.rs`, `src/types.rs`,
`src/decode.rs`, `src/encode.rs`) and proofs about it.

Modelling conventions, used uniformly below:

* A Rust `u8` byte is a `Nat`; every byte actually produced by the code is
  `< 256` by construction (`as u8` truncation is modelled as `% 256`).
* Fixed-width machine integers (`i8`/`i16`/`i32`/`i64`) are modelled by their
  unsigned bit pattern, a `Nat c < 2 ^ width`.  Where the Rust code uses the
  *signed* view of a value (casts `as usize`, loop bounds `0 .. len`), an
  explicit conversion function reproduces two's-complement semantics.
* `f32`/`f64` are carried around purely as their bit patterns (the code only
  ever `transmute`s them to the same-width integer and back, so the bit
  pattern is the whole observable state, including NaN payloads and -0.0).
* A Rust `String` / `&str` is modelled as its UTF-8 byte sequence,
  a `List Nat`.  `String::from_utf8_lossy` is the identity on valid UTF-8
  (its documented behaviour), and every string written by the encoder comes
  from a Rust `String`, which is valid UTF-8 by type invariant; so the model
  represents the lossy conversion as the identity on the byte list.
* A `HashMap<String, Tag>` is modelled as an association list together with
  its (unspecified but stable) iteration order; `insert` overwrites an
  existing key in place and otherwise appends.  Keys are unique by the
  `HashMap` type invariant.
* The byte-readable stream (`std::io::Read`) is a `List Nat` of remaining
  bytes.  `read(&mut buf)` for an in-memory source copies
  `min (buf.len) (stream.len)` bytes into the front of `buf` and leaves the
  rest of the pre-zeroed buffer untouched; it never reports an I/O error.
  The byte-writable sink (`std::io::Write`) is append-only, so each `write_*`
  function returns the list of bytes it appended (the sink after the call is
  the old sink with those bytes appended); `flush` appends nothing.
* The decoding functions are additionally indexed by `fuel : Nat`, bounding
  the recursion depth (`read_value`/`read_tag` recursion in the source is
  bounded only by the stream, which Lean's termination checker cannot see).
  `none` means "fuel exhausted" and is never a behaviour of the program:
  every theorem below either holds for all fuel or supplies enough fuel.
-/

namespace Nbt

/-! ## Numeric codec (`src/lib.rs`, `make_encodable!` / `make_decodable!`)

`make_encodable!(i8, 0)` etc. expand to `to_bytes` producing
`vec![ (*self >> n) as u8, ... ]`, big-endian.  On the unsigned bit pattern
`u < 2 ^ w`, the Rust arithmetic shift of the signed value followed by
`as u8` equals `(u >>> n) % 256` for every shift `n ≤ w - 8` (the low eight
bits of an arithmetic and a logical shift agree while the window stays
inside the original `w` bits), which is how each byte is written here. -/

def i8_to_bytes (u : Nat) : List Nat := [u % 256]

def i16_to_bytes (u : Nat) : List Nat := [(u >>> 8) % 256, u % 256]

def i32_to_bytes (u : Nat) : List Nat :=
  [(u >>> 24) % 256, (u >>> 16) % 256, (u >>> 8) % 256, u % 256]

def i64_to_bytes (u : Nat) : List Nat :=
  [(u >>> 56) % 256, (u >>> 48) % 256, (u >>> 40) % 256, (u >>> 32) % 256,
   (u >>> 24) % 256, (u >>> 16) % 256, (u >>> 8) % 256, u % 256]

/-- Macro `make_encodable!(f32 => i32)`: transmute to `i32`, then that impl.
On bit patterns the transmute is the identity. -/
def f32_to_bytes (u : Nat) : List Nat := i32_to_bytes u

/-- Macro `make_encodable!(f64 => i64)`: transmute to `i64`, then that impl. -/
def f64_to_bytes (u : Nat) : List Nat := i64_to_bytes u

/-! `make_decodable!(iN, s, 0, 1, ...)` expands to
`if d.len() != s { None } else { Some((d[0] as iN) << 8*(s-1) | ...) }`.
`d[i] as iN` zero-extends the byte, and `<<`/`|` act on the bit pattern. -/

def i8_from_bytes (d : List Nat) : Option Nat :=
  if d.length = 1 then some (d.getD 0 0) else none

def i16_from_bytes (d : List Nat) : Option Nat :=
  if d.length = 2 then some ((d.getD 0 0 <<< 8) ||| d.getD 1 0) else none

def i32_from_bytes (d : List Nat) : Option Nat :=
  if d.length = 4 then
    some ((d.getD 0 0 <<< 24) ||| (d.getD 1 0 <<< 16) |||
          (d.getD 2 0 <<< 8) ||| d.getD 3 0)
  else none

def i64_from_bytes (d : List Nat) : Option Nat :=
  if d.length = 8 then
    some ((d.getD 0 0 <<< 56) ||| (d.getD 1 0 <<< 48) |||
          (d.getD 2 0 <<< 40) ||| (d.getD 3 0 <<< 32) |||
          (d.getD 4 0 <<< 24) ||| (d.getD 5 0 <<< 16) |||
          (d.getD 6 0 <<< 8) ||| d.getD 7 0)
  else none

/-- Macro `make_decodable!(f32 => i32)`: decode the `i32`, transmute (identity on
bit patterns). -/
def f32_from_bytes (d : List Nat) : Option Nat := i32_from_bytes d

/-- Macro `make_decodable!(f64 => i64)`. -/
def f64_from_bytes (d : List Nat) : Option Nat := i64_from_bytes d

/-! ### Two's-complement view helpers -/

/-- Rust `x as usize` for `x : i16` (sign extension to 64-bit `usize`),
on bit patterns. -/
def i16_as_usize (p : Nat) : Nat :=
  if p < 2 ^ 15 then p else 2 ^ 64 - 2 ^ 16 + p

/-- Rust `x as usize` for `x : i32` (sign extension to 64-bit `usize`),
on bit patterns. -/
def i32_as_usize (p : Nat) : Nat :=
  if p < 2 ^ 31 then p else 2 ^ 64 - 2 ^ 32 + p

/-- Number of iterations of Rust `for _ in 0 .. len` for `len : i32`:
`len` iterations if `len` is positive, none otherwise. -/
def i32_loop_count (p : Nat) : Nat :=
  if p < 2 ^ 31 then p else 0

/-! ### Arithmetic facts about the codec -/

theorem testBit_mul_pow_add {a b k : Nat} (hb : b < 2 ^ k) (i : Nat) :
    (a * 2 ^ k + b).testBit i =
      if i < k then b.testBit i else a.testBit (i - k) := by
  rcases Nat.lt_or_ge i k with h | h
  · simp only [if_pos h, Nat.testBit_to_div_mod]
    have hk : a * 2 ^ k = (a * 2 ^ (k - i - 1) * 2) * 2 ^ i := by
      rw [Nat.mul_assoc, Nat.mul_assoc, ← Nat.pow_succ']
      congr 2
      rw [← Nat.pow_add]
      congr 1
      omega
    rw [hk, Nat.add_comm,
        Nat.add_mul_div_right _ _ (Nat.pos_pow_of_pos i (by norm_num)),
        Nat.add_mul_mod_self_right]
  · simp only [if_neg (Nat.not_lt.mpr h), Nat.testBit_to_div_mod]
    have h2 : (2 : Nat) ^ i = 2 ^ k * 2 ^ (i - k) := by
      rw [← Nat.pow_add]; congr 1; omega
    rw [h2, ← Nat.div_div_eq_div_mul, Nat.add_comm,
        Nat.add_mul_div_right _ _ (Nat.pos_pow_of_pos k (by norm_num)),
        Nat.div_eq_of_lt hb, Nat.zero_add]

/-- Shifted disjunction as addition: `x << k | y` is `x * 2 ^ k + y` when `y` stays below the shifted bits:
the key fact behind the big-endian byte reassembly in `from_bytes`. -/
theorem shiftLeft_lor_eq {a b k : Nat} (hb : b < 2 ^ k) :
    (a <<< k) ||| b = a * 2 ^ k + b := by
  apply Nat.eq_of_testBit_eq
  intro i
  rw [Nat.testBit_lor, Nat.testBit_shiftLeft, testBit_mul_pow_add hb]
  rcases Nat.lt_or_ge i k with h | h
  · simp [if_pos h, Nat.not_le.mpr h]
  · have hbf : b.testBit i = false :=
      Nat.testBit_lt_two_pow (lt_of_lt_of_le hb (Nat.pow_le_pow_right (by norm_num) h))
    simp [if_neg (Nat.not_lt.mpr h), h, hbf]

theorem i8_round_trip (u : Nat) (hu : u < 2 ^ 8) :
    i8_from_bytes (i8_to_bytes u) = some u := by
  simp only [i8_to_bytes, i8_from_bytes, List.length_cons, List.length_nil,
    List.getD_cons_zero]
  rw [if_pos trivial]
  congr 1
  omega

theorem i16_round_trip (u : Nat) (hu : u < 2 ^ 16) :
    i16_from_bytes (i16_to_bytes u) = some u := by
  simp only [i16_to_bytes, i16_from_bytes, Nat.shiftRight_eq_div_pow,
    List.length_cons, List.length_nil, List.getD_cons_zero, List.getD_cons_succ]
  rw [if_pos trivial,
      shiftLeft_lor_eq (show u % 256 < 2 ^ 8 by omega)]
  congr 1
  omega

theorem i32_round_trip (u : Nat) (hu : u < 2 ^ 32) :
    i32_from_bytes (i32_to_bytes u) = some u := by
  simp only [i32_to_bytes, i32_from_bytes, Nat.shiftRight_eq_div_pow,
    List.length_cons, List.length_nil, List.getD_cons_zero, List.getD_cons_succ]
  rw [if_pos trivial, Nat.lor_assoc, Nat.lor_assoc,
      shiftLeft_lor_eq (show u % 256 < 2 ^ 8 by omega),
      shiftLeft_lor_eq
        (show u / 2 ^ 8 % 256 * 2 ^ 8 + u % 256 < 2 ^ 16 by omega),
      shiftLeft_lor_eq
        (show u / 2 ^ 16 % 256 * 2 ^ 16 +
          (u / 2 ^ 8 % 256 * 2 ^ 8 + u % 256) < 2 ^ 24 by omega)]
  congr 1
  omega

theorem i64_round_trip (u : Nat) (hu : u < 2 ^ 64) :
    i64_from_bytes (i64_to_bytes u) = some u := by
  simp only [i64_to_bytes, i64_from_bytes, Nat.shiftRight_eq_div_pow,
    List.length_cons, List.length_nil, List.getD_cons_zero, List.getD_cons_succ]
  rw [if_pos trivial, Nat.lor_assoc, Nat.lor_assoc, Nat.lor_assoc,
      Nat.lor_assoc, Nat.lor_assoc, Nat.lor_assoc,
      shiftLeft_lor_eq (show u % 256 < 2 ^ 8 by omega),
      shiftLeft_lor_eq
        (show u / 2 ^ 8 % 256 * 2 ^ 8 + u % 256 < 2 ^ 16 by omega),
      shiftLeft_lor_eq
        (show u / 2 ^ 16 % 256 * 2 ^ 16 +
          (u / 2 ^ 8 % 256 * 2 ^ 8 + u % 256) < 2 ^ 24 by omega),
      shiftLeft_lor_eq
        (show u / 2 ^ 24 % 256 * 2 ^ 24 + (u / 2 ^ 16 % 256 * 2 ^ 16 +
          (u / 2 ^ 8 % 256 * 2 ^ 8 + u % 256)) < 2 ^ 32 by omega),
      shiftLeft_lor_eq
        (show u / 2 ^ 32 % 256 * 2 ^ 32 + (u / 2 ^ 24 % 256 * 2 ^ 24 +
          (u / 2 ^ 16 % 256 * 2 ^ 16 +
            (u / 2 ^ 8 % 256 * 2 ^ 8 + u % 256))) < 2 ^ 40 by omega),
      shiftLeft_lor_eq
        (show u / 2 ^ 40 % 256 * 2 ^ 40 + (u / 2 ^ 32 % 256 * 2 ^ 32 +
          (u / 2 ^ 24 % 256 * 2 ^ 24 + (u / 2 ^ 16 % 256 * 2 ^ 16 +
            (u / 2 ^ 8 % 256 * 2 ^ 8 + u % 256)))) < 2 ^ 48 by omega),
      shiftLeft_lor_eq
        (show u / 2 ^ 48 % 256 * 2 ^ 48 + (u / 2 ^ 40 % 256 * 2 ^ 40 +
          (u / 2 ^ 32 % 256 * 2 ^ 32 + (u / 2 ^ 24 % 256 * 2 ^ 24 +
            (u / 2 ^ 16 % 256 * 2 ^ 16 +
              (u / 2 ^ 8 % 256 * 2 ^ 8 + u % 256))))) < 2 ^ 56 by omega)]
  congr 1
  omega

theorem i8_to_bytes_length (u : Nat) : (i8_to_bytes u).length = 1 := rfl

theorem i16_to_bytes_length (u : Nat) : (i16_to_bytes u).length = 2 := rfl

theorem i32_to_bytes_length (u : Nat) : (i32_to_bytes u).length = 4 := rfl

theorem i64_to_bytes_length (u : Nat) : (i64_to_bytes u).length = 8 := rfl

/-! ## Data model (`src/types.rs`) -/

/-- Rust `enum Error` from `src/types.rs`.  `IOError(std::io::Error)` carries the
underlying error; the in-memory streams modelled here never produce one. -/
inductive Error where
  | EndOfCompound
  | Malformed
  | Invalid
  | IOError
  deriving DecidableEq, Repr

/-- Rust `enum TagType` from `src/types.rs`. -/
inductive TagType where
  | End | Byte | Short | Int | Long | Float | Double | String
  | ByteArray | IntArray | List | Compound
  deriving DecidableEq, Repr

/-- Function `TagType::from_binary` (`src/types.rs`). -/
def TagType.from_binary (t : Nat) : Option TagType :=
  match t with
  | 0 => some TagType.End
  | 1 => some TagType.Byte
  | 2 => some TagType.Short
  | 3 => some TagType.Int
  | 4 => some TagType.Long
  | 5 => some TagType.Float
  | 6 => some TagType.Double
  | 7 => some TagType.ByteArray
  | 8 => some TagType.String
  | 9 => some TagType.List
  | 10 => some TagType.Compound
  | 11 => some TagType.IntArray
  | _ => none

/-- Function `TagType::to_binary` (`src/types.rs`). -/
def TagType.to_binary : TagType → Nat
  | TagType.End       => 0
  | TagType.Byte      => 1
  | TagType.Short     => 2
  | TagType.Int       => 3
  | TagType.Long      => 4
  | TagType.Float     => 5
  | TagType.Double    => 6
  | TagType.ByteArray => 7
  | TagType.String    => 8
  | TagType.List      => 9
  | TagType.Compound  => 10
  | TagType.IntArray  => 11

/-- Rust `enum Tag` from `src/types.rs`.  Scalars carry their bit patterns;
strings carry their UTF-8 bytes; `List` inlines `ListData`
(`element_type` and `elements`); `Compound` inlines `CompoundData`,
with the `HashMap` modelled as an association list in iteration order. -/
inductive Tag where
  | End : Tag
  | Byte (v : Nat) : Tag
  | Short (v : Nat) : Tag
  | Int (v : Nat) : Tag
  | Long (v : Nat) : Tag
  | Float (v : Nat) : Tag
  | Double (v : Nat) : Tag
  | String (s : List Nat) : Tag
  | ByteArray (bs : List Nat) : Tag
  | IntArray (xs : List Nat) : Tag
  | List (element_type : TagType) (elements : List Tag) : Tag
  | Compound (elements : List (List Nat × Tag)) : Tag
  deriving Repr

/-- Method `Tag::get_type` (`src/types.rs`). -/
def Tag.get_type : Tag → TagType
  | Tag.End          => TagType.End
  | Tag.Byte _       => TagType.Byte
  | Tag.Short _      => TagType.Short
  | Tag.Int _        => TagType.Int
  | Tag.Long _       => TagType.Long
  | Tag.Float _      => TagType.Float
  | Tag.Double _     => TagType.Double
  | Tag.String _     => TagType.String
  | Tag.ByteArray _  => TagType.ByteArray
  | Tag.IntArray _   => TagType.IntArray
  | Tag.List _ _     => TagType.List
  | Tag.Compound _   => TagType.Compound

/-- Model of `HashMap::insert` on the association-list model: overwrite the value of
an existing key in place, otherwise append the new binding at the end of
the iteration order. -/
def mapInsert (m : List (List Nat × Tag)) (k : List Nat) (v : Tag) :
    List (List Nat × Tag) :=
  if m.any (fun p => p.1 = k) then
    m.map (fun p => if p.1 = k then (k, v) else p)
  else
    m ++ [(k, v)]

theorem from_binary_to_binary (t : TagType) :
    TagType.from_binary t.to_binary = some t := by
  cases t <;> rfl

theorem to_binary_lt (t : TagType) : t.to_binary < 256 := by
  cases t <;> simp [TagType.to_binary]

theorem to_binary_eq_zero_iff (t : TagType) :
    t.to_binary = 0 ↔ t = TagType.End := by
  cases t <;> simp [TagType.to_binary]

/-! ## Decoder (`src/decode.rs`)

The reader is the list of bytes not yet consumed.  `reader.read(&mut buf)`
into a pre-zeroed buffer of length `n` copies the next `min n s.length`
stream bytes into the front of the buffer and leaves the remaining buffer
bytes at their initial `0`; the number of bytes actually read is returned
by Rust but discarded by every call site in `decode.rs`.

Besides returning a `Result`, the decoder can abort: the allocations
`vec![0; name_len]` (`read_string`), `vec![0_u8; len as usize]`
(ByteArray), and `Vec::with_capacity(len as usize)` (List, IntArray) all
panic with a capacity overflow when the requested capacity's byte size
exceeds `isize::MAX = 2 ^ 63 - 1`, before any element is read.  `Run`
distinguishes a normal return from that panic, which propagates to the
top of the call (nothing in the crate catches unwinding). -/

/-- One `reader.read(&mut buf)` call on a fresh zeroed buffer of length `n`:
returns the buffer contents and the rest of the stream. -/
def readBuf (n : Nat) (s : List Nat) : List Nat × List Nat :=
  (s.take n ++ List.replicate (n - s.length) 0, s.drop n)

/-- Model of `Option::unwrap` at the two call sites in `decode.rs` where the option
is provably `some` (a length-2 buffer fed to `i16::from_bytes`). -/
def unwrapD (o : Option Nat) : Nat := o.getD 0

/-- Outcome of running a decoding function: `ret r` when the function
returns the `Result` `r`, `panicked` when the thread panics (for this
decoder, always a capacity overflow inside an allocation).  A panic
unwinds through every caller. -/
inductive Run (α : Type) where
  | ret (r : Except Error α) : Run α
  | panicked : Run α
  deriving Repr

/-- Whether `Vec::with_capacity(n)` / `vec![0; n]` panics with a capacity
overflow: the requested capacity's byte size exceeds
`isize::MAX = 2 ^ 63 - 1`.  Every capacity this decoder can request is
either `< 2 ^ 31` (a non-negative `i32`/`i16` length) or
`≥ 2 ^ 64 - 2 ^ 32 + 2 ^ 31 > 2 ^ 63` (a sign-extended negative one), so
this threshold reproduces the source's deterministic panic exactly for
every element size of at least one byte. -/
def capacityOverflow (n : Nat) : Bool := decide (2 ^ 63 - 1 < n)

/-- Function `read_string` (`src/decode.rs`): a 2-byte big-endian `i16` length,
cast `as usize`, then `vec![0; name_len]` (which panics on capacity
overflow) filled with that many raw bytes; `String::from_utf8_lossy` is
the identity on the byte-sequence model of strings. -/
def read_string (s : List Nat) : Run (List Nat × List Nat) :=
  let r1 := readBuf 2 s
  let name_len := i16_as_usize (unwrapD (i16_from_bytes r1.1))
  if name_len > 0 then
    if capacityOverflow name_len then Run.panicked
    else
      let r2 := readBuf name_len r1.2
      Run.ret (Except.ok (r2.1, r2.2))
  else
    Run.ret (Except.ok ([], r1.2))

/-- Function `read_primitive::<R, T>` (`src/decode.rs`), monomorphised over the
width `size_of::<T>()` and the `Decodable` impl of `T`: fill a zeroed
buffer of the exact width from the reader (short reads leave trailing
zeros), then decode it.  Its `vec![0; siz]` has a constant size of 1 to 8
bytes and can never overflow, so no `Run` wrapper is needed here. -/
def read_primitive (siz : Nat) (fromB : List Nat → Option Nat)
    (s : List Nat) : Except Error (Nat × List Nat) :=
  let r := readBuf siz s
  match fromB r.1 with
  | some x => Except.ok (x, r.2)
  | none   => Except.error Error.Malformed

/-- The `TagType::IntArray` loop of `read_value`: read `count` big-endian
`i32` values (only `read_primitive` inside, so no panic is possible). -/
def read_int_elems : Nat → List Nat → Except Error (List Nat × List Nat)
  | 0, s => Except.ok ([], s)
  | c + 1, s =>
    match read_primitive 4 i32_from_bytes s with
    | Except.error e => Except.error e
    | Except.ok (x, s') =>
      match read_int_elems c s' with
      | Except.error e => Except.error e
      | Except.ok (xs, s'') => Except.ok (x :: xs, s'')

/-!
`read_value`, `read_tag` and the two loops inside them (`for _ in 0..len`
for lists, `loop { read_tag }` for compounds) are mutually recursive on the
stream; the extra `fuel` argument bounds that recursion for Lean, and
`none` means the bound was hit (never a program behaviour; the theorems
below always supply enough fuel).

`decode.rs` also contains a `TagType::LongArray` arm, but no such variant
exists in the crate's `TagType`/`Tag` (`src/types.rs`), so that arm has no
counterpart in the embedding.
-/
mutual

/-- Function `read_value` (`src/decode.rs`). -/
def read_value : Nat → TagType → List Nat →
    Option (Run (Tag × List Nat))
  | 0, _, _ => none
  | _ + 1, TagType.End, _ =>
    -- "Can't read the end marker as an actual tag"
    some (Run.ret (Except.error Error.Malformed))
  | _ + 1, TagType.Byte, s =>
    some (Run.ret
      ((read_primitive 1 i8_from_bytes s).map fun r => (Tag.Byte r.1, r.2)))
  | _ + 1, TagType.Short, s =>
    some (Run.ret
      ((read_primitive 2 i16_from_bytes s).map fun r => (Tag.Short r.1, r.2)))
  | _ + 1, TagType.Int, s =>
    some (Run.ret
      ((read_primitive 4 i32_from_bytes s).map fun r => (Tag.Int r.1, r.2)))
  | _ + 1, TagType.Long, s =>
    some (Run.ret
      ((read_primitive 8 i64_from_bytes s).map fun r => (Tag.Long r.1, r.2)))
  | _ + 1, TagType.Float, s =>
    some (Run.ret
      ((read_primitive 4 f32_from_bytes s).map fun r => (Tag.Float r.1, r.2)))
  | _ + 1, TagType.Double, s =>
    some (Run.ret
      ((read_primitive 8 f64_from_bytes s).map fun r => (Tag.Double r.1, r.2)))
  | _ + 1, TagType.ByteArray, s =>
    -- `let len = read_primitive::<_, i32>?;` then `vec![0_u8; len as usize]`
    -- (panics on capacity overflow) filled by a single `read` call
    -- (zero-padded on a short stream).
    match read_primitive 4 i32_from_bytes s with
    | Except.error e => some (Run.ret (Except.error e))
    | Except.ok (len, s1) =>
      if capacityOverflow (i32_as_usize len) then some Run.panicked
      else
        let r := readBuf (i32_as_usize len) s1
        some (Run.ret (Except.ok (Tag.ByteArray r.1, r.2)))
  | _ + 1, TagType.String, s =>
    match read_string s with
    | Run.panicked => some Run.panicked
    | Run.ret r => some (Run.ret (r.map fun p => (Tag.String p.1, p.2)))
  | fuel + 1, TagType.List, s =>
    match read_primitive 1 i8_from_bytes s with
    | Except.error e => some (Run.ret (Except.error e))
    | Except.ok (et, s1) =>
      match read_primitive 4 i32_from_bytes s1 with
      | Except.error e => some (Run.ret (Except.error e))
      | Except.ok (len, s2) =>
        -- `if tt.is_none() && et != 0 { return Err(Malformed) }`: since
        -- `from_binary 0 = Some(End)`, `tt.is_none()` already implies
        -- `et != 0`, so the guard fires exactly when `tt` is `none`,
        -- and both later `unwrap()`s of `tt` are safe.
        match TagType.from_binary et with
        | none => some (Run.ret (Except.error Error.Malformed))
        | some tt =>
          -- `let mut vec = Vec::with_capacity(len as usize);`
          if capacityOverflow (i32_as_usize len) then some Run.panicked
          else
            match read_list_elems fuel tt (i32_loop_count len) s2 with
            | none => none
            | some Run.panicked => some Run.panicked
            | some (Run.ret (Except.error e)) =>
              some (Run.ret (Except.error e))
            | some (Run.ret (Except.ok (elems, s3))) =>
              some (Run.ret (Except.ok (Tag.List tt elems, s3)))
  | fuel + 1, TagType.Compound, s => read_compound fuel s []
  | _ + 1, TagType.IntArray, s =>
    match read_primitive 4 i32_from_bytes s with
    | Except.error e => some (Run.ret (Except.error e))
    | Except.ok (len, s1) =>
      -- `let mut ints = Vec::with_capacity(len as usize);`
      if capacityOverflow (i32_as_usize len) then some Run.panicked
      else
        match read_int_elems (i32_loop_count len) s1 with
        | Except.error e => some (Run.ret (Except.error e))
        | Except.ok (xs, s2) => some (Run.ret (Except.ok (Tag.IntArray xs, s2)))

/-- The `TagType::List` loop of `read_value`: decode `count` values of the
declared element type. -/
def read_list_elems : Nat → TagType → Nat → List Nat →
    Option (Run (List Tag × List Nat))
  | 0, _, _, _ => none
  | _ + 1, _, 0, s => some (Run.ret (Except.ok ([], s)))
  | fuel + 1, et, c + 1, s =>
    match read_value fuel et s with
    | none => none
    | some Run.panicked => some Run.panicked
    | some (Run.ret (Except.error e)) => some (Run.ret (Except.error e))
    | some (Run.ret (Except.ok (v, s'))) =>
      match read_list_elems fuel et c s' with
      | none => none
      | some Run.panicked => some Run.panicked
      | some (Run.ret (Except.error e)) => some (Run.ret (Except.error e))
      | some (Run.ret (Except.ok (vs, s''))) =>
        some (Run.ret (Except.ok (v :: vs, s'')))

/-- The `TagType::Compound` loop of `read_value`: `read_tag` repeatedly,
inserting into the map, until a tag whose value is `End`. -/
def read_compound : Nat → List Nat → List (List Nat × Tag) →
    Option (Run (Tag × List Nat))
  | 0, _, _ => none
  | fuel + 1, s, acc =>
    match read_tag fuel s with
    | none => none
    | some Run.panicked => some Run.panicked
    | some (Run.ret (Except.error e)) => some (Run.ret (Except.error e))
    | some (Run.ret (Except.ok ((_, Tag.End), s'))) =>
      some (Run.ret (Except.ok (Tag.Compound acc, s')))
    | some (Run.ret (Except.ok ((n, v), s'))) =>
      read_compound fuel s' (mapInsert acc n v)

/-- Function `read_tag` (`src/decode.rs`): a 1-byte type code (an empty stream
leaves the zeroed header byte, i.e. `End`), then for every code other than
`End` a name and a value. -/
def read_tag : Nat → List Nat →
    Option (Run ((List Nat × Tag) × List Nat))
  | 0, _ => none
  | fuel + 1, s =>
    let r := readBuf 1 s
    match TagType.from_binary (r.1.getD 0 0) with
    | none => some (Run.ret (Except.error Error.Malformed))
    | some t =>
      if t = TagType.End then
        some (Run.ret (Except.ok (([], Tag.End), r.2)))
      else
        match read_string r.2 with
        | Run.panicked => some Run.panicked
        | Run.ret (Except.error e) => some (Run.ret (Except.error e))
        | Run.ret (Except.ok (name, s2)) =>
          match read_value fuel t s2 with
          | none => none
          | some Run.panicked => some Run.panicked
          | some (Run.ret (Except.error e)) => some (Run.ret (Except.error e))
          | some (Run.ret (Except.ok (v, s3))) =>
            some (Run.ret (Except.ok ((name, v), s3)))

end

/-! ## Encoder (`src/encode.rs`)

The sink is append-only: each function returns the bytes it appended
(actual sink after a call = sink before ++ returned bytes), together with
the `Result`.  `write_primitive` is `writer.write(&i.to_bytes())`, i.e. a
plain append of the codec bytes; `writer.flush()` appends nothing.  When a
recursive write fails, the bytes appended before the failure point have
already reached the sink and stay there, exactly as in the source. -/

/-- Function `write_string` (`src/encode.rs`): `s.len() as i16` (truncating cast)
through the codec, then the raw UTF-8 bytes. -/
def write_string (s : List Nat) : List Nat :=
  i16_to_bytes (s.length % 2 ^ 16) ++ s

mutual

/-- Function `write_value` (`src/encode.rs`). -/
def write_value : Tag → Except Error Unit × List Nat
  | Tag.End => (Except.error Error.Invalid, [])
  | Tag.Byte x => (Except.ok (), i8_to_bytes x)
  | Tag.Short x => (Except.ok (), i16_to_bytes x)
  | Tag.Int x => (Except.ok (), i32_to_bytes x)
  | Tag.Long x => (Except.ok (), i64_to_bytes x)
  | Tag.Float x => (Except.ok (), f32_to_bytes x)
  | Tag.Double x => (Except.ok (), f64_to_bytes x)
  | Tag.ByteArray x =>
    (Except.ok (), i32_to_bytes (x.length % 2 ^ 32) ++ x)
  | Tag.String x => (Except.ok (), write_string x)
  | Tag.List et elems =>
    -- element-type code (`to_binary() as i8`), count (`len() as i32`),
    -- then the elements until the first failure.
    let r := write_values elems
    (r.1, i8_to_bytes et.to_binary ++
      i32_to_bytes (elems.length % 2 ^ 32) ++ r.2)
  | Tag.Compound entries =>
    -- each `(name, value)` via `write_tag`, then a single `End` byte.
    let r := write_entries entries
    match r.1 with
    | Except.error e => (Except.error e, r.2)
    | Except.ok _ => (Except.ok (), r.2 ++ i8_to_bytes 0)
  | Tag.IntArray xs =>
    (Except.ok (),
      i32_to_bytes (xs.length % 2 ^ 32) ++ (xs.map i32_to_bytes).flatten)

/-- The element loop of `write_value` for `Tag::List`. -/
def write_values : List Tag → Except Error Unit × List Nat
  | [] => (Except.ok (), [])
  | t :: ts =>
    match write_value t with
    | (Except.error e, out) => (Except.error e, out)
    | (Except.ok _, out) =>
      let r := write_values ts
      (r.1, out ++ r.2)

/-- The entry loop of `write_value` for `Tag::Compound`. -/
def write_entries : List (List Nat × Tag) → Except Error Unit × List Nat
  | [] => (Except.ok (), [])
  | (n, v) :: es =>
    match write_tag n v with
    | (Except.error e, out) => (Except.error e, out)
    | (Except.ok _, out) =>
      let r := write_entries es
      (r.1, out ++ r.2)

/-- Function `write_tag` (`src/encode.rs`): type code (`to_binary() as i8`), name,
value, flush. -/
def write_tag (name : List Nat) (t : Tag) : Except Error Unit × List Nat :=
  let r := write_value t
  (r.1, i8_to_bytes t.get_type.to_binary ++ write_string name ++ r.2)

end

/-! ## Validity predicates

`Tag.rustInv` holds for exactly the trees that are representable as Rust
values of type `Tag` at all: scalar bit patterns fit their width, raw bytes
are bytes, `IntArray` elements are `i32` patterns, and `HashMap` keys are
unique.  It is a type invariant of the source language, not a restriction.

`Tag.specValid` is the validity condition exactly as the round-trip claim
states it: every list element's runtime type equals the list's declared
`element_type`, no `Tag::End` appears as a value, and every string's byte
length fits the (signed) 16-bit length field.

`Tag.lenBound` is the additional condition (not part of the claim as
stated) that every `List`/`ByteArray`/`IntArray` holds fewer than `2 ^ 31`
elements, so that its length survives the `as i32` cast in the encoder. -/

mutual

def Tag.rustInv : Tag → Bool
  | Tag.End => true
  | Tag.Byte x => decide (x < 2 ^ 8)
  | Tag.Short x => decide (x < 2 ^ 16)
  | Tag.Int x => decide (x < 2 ^ 32)
  | Tag.Long x => decide (x < 2 ^ 64)
  | Tag.Float x => decide (x < 2 ^ 32)
  | Tag.Double x => decide (x < 2 ^ 64)
  | Tag.String s => decide (∀ b ∈ s, b < 256)
  | Tag.ByteArray bs => decide (∀ b ∈ bs, b < 256)
  | Tag.IntArray xs => decide (∀ x ∈ xs, x < 2 ^ 32)
  | Tag.List _ elems => rustInvElems elems
  | Tag.Compound entries =>
    decide ((entries.map Prod.fst).Nodup) && rustInvEntries entries

def rustInvElems : List Tag → Bool
  | [] => true
  | t :: ts => t.rustInv && rustInvElems ts

def rustInvEntries : List (List Nat × Tag) → Bool
  | [] => true
  | (n, v) :: es =>
    decide (∀ b ∈ n, b < 256) && v.rustInv && rustInvEntries es

end

mutual

def Tag.specValid : Tag → Bool
  | Tag.End => false
  | Tag.String s => decide (s.length ≤ 32767)
  | Tag.List et elems => specValidElems et elems
  | Tag.Compound entries => specValidEntries entries
  | _ => true

def specValidElems : TagType → List Tag → Bool
  | _, [] => true
  | et, t :: ts =>
    (t.get_type == et) && t.specValid && specValidElems et ts

def specValidEntries : List (List Nat × Tag) → Bool
  | [] => true
  | (n, v) :: es =>
    decide (n.length ≤ 32767) && v.specValid && specValidEntries es

end

mutual

def Tag.lenBound : Tag → Bool
  | Tag.ByteArray bs => decide (bs.length < 2 ^ 31)
  | Tag.IntArray xs => decide (xs.length < 2 ^ 31)
  | Tag.List _ elems =>
    decide (elems.length < 2 ^ 31) && lenBoundElems elems
  | Tag.Compound entries => lenBoundEntries entries
  | _ => true

def lenBoundElems : List Tag → Bool
  | [] => true
  | t :: ts => t.lenBound && lenBoundElems ts

def lenBoundEntries : List (List Nat × Tag) → Bool
  | [] => true
  | (_, v) :: es => v.lenBound && lenBoundEntries es

end

/-- A fully valid tree: representable in Rust, valid in the claim's sense,
and with container lengths that survive the `as i32` casts. -/
def Tag.valid (t : Tag) : Bool := t.rustInv && t.specValid && t.lenBound

/-! ## Fuel bounds for the decoder -/

mutual

def Tag.fuelNeeded : Tag → Nat
  | Tag.List _ elems => elemsFuel elems + 2
  | Tag.Compound entries => entriesFuel entries + 3
  | _ => 1

def elemsFuel : List Tag → Nat
  | [] => 1
  | t :: ts => t.fuelNeeded + elemsFuel ts + 1

def entriesFuel : List (List Nat × Tag) → Nat
  | [] => 2
  | (_, v) :: es => v.fuelNeeded + entriesFuel es + 2

end

/-! ## Supporting lemmas -/

theorem readBuf_exact {xs : List Nat} {n : Nat} (h : xs.length = n)
    (rest : List Nat) : readBuf n (xs ++ rest) = (xs, rest) := by
  subst h
  simp [readBuf, List.take_left, List.drop_left]

theorem readBuf_of_le {n : Nat} {s : List Nat} (h : n <= s.length) :
    readBuf n s = (s.take n, s.drop n) := by
  rw [readBuf, Nat.sub_eq_zero_of_le h, List.replicate_zero, List.append_nil]

theorem read_primitive_i8 {u : Nat} (hu : u < 2 ^ 8) (rest : List Nat) :
    read_primitive 1 i8_from_bytes (i8_to_bytes u ++ rest) =
      Except.ok (u, rest) := by
  simp [read_primitive, readBuf_exact (i8_to_bytes_length u) rest,
    i8_round_trip u hu]

theorem read_primitive_i16 {u : Nat} (hu : u < 2 ^ 16) (rest : List Nat) :
    read_primitive 2 i16_from_bytes (i16_to_bytes u ++ rest) =
      Except.ok (u, rest) := by
  simp [read_primitive, readBuf_exact (i16_to_bytes_length u) rest,
    i16_round_trip u hu]

theorem read_primitive_i32 {u : Nat} (hu : u < 2 ^ 32) (rest : List Nat) :
    read_primitive 4 i32_from_bytes (i32_to_bytes u ++ rest) =
      Except.ok (u, rest) := by
  simp [read_primitive, readBuf_exact (i32_to_bytes_length u) rest,
    i32_round_trip u hu]

theorem read_primitive_i64 {u : Nat} (hu : u < 2 ^ 64) (rest : List Nat) :
    read_primitive 8 i64_from_bytes (i64_to_bytes u ++ rest) =
      Except.ok (u, rest) := by
  simp [read_primitive, readBuf_exact (i64_to_bytes_length u) rest,
    i64_round_trip u hu]

theorem read_primitive_f32 {u : Nat} (hu : u < 2 ^ 32) (rest : List Nat) :
    read_primitive 4 f32_from_bytes (f32_to_bytes u ++ rest) =
      Except.ok (u, rest) := read_primitive_i32 hu rest

theorem read_primitive_f64 {u : Nat} (hu : u < 2 ^ 64) (rest : List Nat) :
    read_primitive 8 f64_from_bytes (f64_to_bytes u ++ rest) =
      Except.ok (u, rest) := read_primitive_i64 hu rest

theorem not_capacityOverflow {n : Nat} (h : n < 2 ^ 63) :
    ¬ capacityOverflow n = true := by
  simp only [capacityOverflow, decide_eq_true_eq]
  omega

theorem capacityOverflow_holds {n : Nat} (h : 2 ^ 63 - 1 < n) :
    capacityOverflow n = true := by
  simp only [capacityOverflow, decide_eq_true_eq]
  exact h

theorem i32_as_usize_neg {p : Nat} (h : 2 ^ 31 <= p) :
    i32_as_usize p = 2 ^ 64 - 2 ^ 32 + p := by
  rw [i32_as_usize, if_neg (by omega)]

theorem read_string_inv {name : List Nat} (h : name.length <= 32767)
    (rest : List Nat) :
    read_string (write_string name ++ rest)
      = Run.ret (Except.ok (name, rest)) := by
  have hlen : name.length % 2 ^ 16 = name.length := Nat.mod_eq_of_lt (by omega)
  simp only [write_string, read_string, List.append_assoc]
  rw [readBuf_exact (i16_to_bytes_length _) (name ++ rest)]
  simp only [unwrapD, i16_round_trip _ (by omega : name.length % 2 ^ 16 < 2 ^ 16),
    Option.getD_some]
  rw [hlen, i16_as_usize, if_pos (by omega : name.length < 2 ^ 15)]
  by_cases h0 : name.length > 0
  case pos =>
    rw [if_pos h0, if_neg (not_capacityOverflow (by omega)),
      readBuf_exact rfl rest]
  case neg =>
    rw [if_neg h0]
    have : name = [] := List.eq_nil_of_length_eq_zero (by omega)
    subst this
    rfl

theorem mapInsert_fresh {m : List (List Nat × Tag)} {k : List Nat}
    (v : Tag) (h : ∀ p ∈ m, p.1 ≠ k) : mapInsert m k v = m ++ [(k, v)] := by
  have hany : (m.any fun p => p.1 = k) = false := by
    simp only [List.any_eq_false, decide_eq_true_eq]
    exact h
  rw [mapInsert, hany]
  simp

/-! ### Extraction lemmas for the validity predicates -/

theorem rustInvElems_mem {ts : List Tag} (h : rustInvElems ts = true) :
    ∀ x ∈ ts, x.rustInv = true := by
  induction ts with
  | nil => intro x hx; cases hx
  | cons t ts ih =>
    simp only [rustInvElems, Bool.and_eq_true] at h
    intro x hx
    rcases List.mem_cons.mp hx with rfl | hx
    · exact h.1
    · exact ih h.2 x hx

theorem rustInvEntries_mem {es : List (List Nat × Tag)}
    (h : rustInvEntries es = true) : ∀ p ∈ es, p.2.rustInv = true := by
  induction es with
  | nil => intro p hp; cases hp
  | cons e es ih =>
    obtain ⟨n, v⟩ := e
    simp only [rustInvEntries, Bool.and_eq_true] at h
    intro p hp
    rcases List.mem_cons.mp hp with rfl | hp
    · exact h.1.2
    · exact ih h.2 p hp

theorem specValidElems_mem {et : TagType} {ts : List Tag}
    (h : specValidElems et ts = true) :
    ∀ x ∈ ts, x.get_type = et ∧ x.specValid = true := by
  induction ts with
  | nil => intro x hx; cases hx
  | cons t ts ih =>
    simp only [specValidElems, Bool.and_eq_true, beq_iff_eq] at h
    intro x hx
    rcases List.mem_cons.mp hx with rfl | hx
    · exact ⟨h.1.1, h.1.2⟩
    · exact ih h.2 x hx

theorem specValidEntries_mem {es : List (List Nat × Tag)}
    (h : specValidEntries es = true) :
    ∀ p ∈ es, p.1.length <= 32767 ∧ p.2.specValid = true := by
  induction es with
  | nil => intro p hp; cases hp
  | cons e es ih =>
    obtain ⟨n, v⟩ := e
    simp only [specValidEntries, Bool.and_eq_true, decide_eq_true_eq] at h
    intro p hp
    rcases List.mem_cons.mp hp with rfl | hp
    · exact ⟨h.1.1, h.1.2⟩
    · exact ih h.2 p hp

theorem lenBoundElems_mem {ts : List Tag} (h : lenBoundElems ts = true) :
    ∀ x ∈ ts, x.lenBound = true := by
  induction ts with
  | nil => intro x hx; cases hx
  | cons t ts ih =>
    simp only [lenBoundElems, Bool.and_eq_true] at h
    intro x hx
    rcases List.mem_cons.mp hx with rfl | hx
    · exact h.1
    · exact ih h.2 x hx

theorem lenBoundEntries_mem {es : List (List Nat × Tag)}
    (h : lenBoundEntries es = true) : ∀ p ∈ es, p.2.lenBound = true := by
  induction es with
  | nil => intro p hp; cases hp
  | cons e es ih =>
    obtain ⟨n, v⟩ := e
    simp only [lenBoundEntries, Bool.and_eq_true] at h
    intro p hp
    rcases List.mem_cons.mp hp with rfl | hp
    · exact h.1
    · exact ih h.2 p hp

theorem valid_list_elem {et : TagType} {elems : List Tag}
    (h : (Tag.List et elems).valid = true) :
    ∀ x ∈ elems, x.valid = true ∧ x.get_type = et := by
  simp only [Tag.valid, Tag.rustInv, Tag.specValid, Tag.lenBound,
    Bool.and_eq_true] at h
  intro x hx
  exact ⟨by
    simp only [Tag.valid, Bool.and_eq_true]
    exact ⟨⟨rustInvElems_mem h.1.1 x hx, (specValidElems_mem h.1.2 x hx).2⟩,
      lenBoundElems_mem h.2.2 x hx⟩,
    (specValidElems_mem h.1.2 x hx).1⟩

theorem valid_compound_entry {es : List (List Nat × Tag)}
    (h : (Tag.Compound es).valid = true) :
    ∀ p ∈ es, p.2.valid = true ∧ p.1.length <= 32767 := by
  simp only [Tag.valid, Tag.rustInv, Tag.specValid, Tag.lenBound,
    Bool.and_eq_true] at h
  intro p hp
  exact ⟨by
    simp only [Tag.valid, Bool.and_eq_true]
    exact ⟨⟨rustInvEntries_mem h.1.1.2 p hp, (specValidEntries_mem h.1.2 p hp).2⟩,
      lenBoundEntries_mem h.2 p hp⟩,
    (specValidEntries_mem h.1.2 p hp).1⟩

theorem valid_compound_nodup {es : List (List Nat × Tag)}
    (h : (Tag.Compound es).valid = true) : (es.map Prod.fst).Nodup := by
  simp only [Tag.valid, Tag.rustInv, Bool.and_eq_true,
    decide_eq_true_eq] at h
  exact h.1.1.1

theorem valid_not_end {t : Tag} (h : t.valid = true) : t ≠ Tag.End := by
  intro he
  subst he
  simp [Tag.valid, Tag.specValid] at h

/-! ### The encoder succeeds on valid trees -/

mutual

theorem write_value_ok : (t : Tag) → t.valid = true →
    (write_value t).1 = Except.ok ()
  | Tag.End, h => by simp [Tag.valid, Tag.specValid] at h
  | Tag.Byte _, _ => by simp [write_value]
  | Tag.Short _, _ => by simp [write_value]
  | Tag.Int _, _ => by simp [write_value]
  | Tag.Long _, _ => by simp [write_value]
  | Tag.Float _, _ => by simp [write_value]
  | Tag.Double _, _ => by simp [write_value]
  | Tag.String _, _ => by simp [write_value]
  | Tag.ByteArray _, _ => by simp [write_value]
  | Tag.IntArray _, _ => by simp [write_value]
  | Tag.List et elems, h => by
    have hok := write_values_ok elems (fun x hx => (valid_list_elem h x hx).1)
    simp only [write_value]
    exact hok
  | Tag.Compound es, h => by
    have hok := write_entries_ok es (fun p hp => (valid_compound_entry h p hp).1)
    simp only [write_value]
    rcases hw : write_entries es with ⟨r1, out⟩
    rw [hw] at hok
    simp at hok
    subst hok
    rfl

theorem write_values_ok : (ts : List Tag) → (∀ x ∈ ts, x.valid = true) →
    (write_values ts).1 = Except.ok ()
  | [], _ => by simp [write_values]
  | t :: ts, h => by
    have h1 := write_value_ok t (h t (by simp))
    have h2 := write_values_ok ts (fun x hx => h x (by simp [hx]))
    simp only [write_values]
    rcases hw : write_value t with ⟨r1, out⟩
    rw [hw] at h1
    simp at h1
    subst h1
    simpa using h2

theorem write_entries_ok : (es : List (List Nat × Tag)) →
    (∀ p ∈ es, p.2.valid = true) → (write_entries es).1 = Except.ok ()
  | [], _ => by simp [write_entries]
  | (n, v) :: es, h => by
    have h1 := write_tag_ok n v (h (n, v) (by simp))
    have h2 := write_entries_ok es (fun p hp => h p (by simp [hp]))
    simp only [write_entries]
    rcases hw : write_tag n v with ⟨r1, out⟩
    rw [hw] at h1
    simp at h1
    subst h1
    simpa using h2

theorem write_tag_ok : (name : List Nat) → (v : Tag) → v.valid = true →
    (write_tag name v).1 = Except.ok ()
  | name, v, h => by
    have h1 := write_value_ok v h
    simp only [write_tag]
    exact h1

end

theorem readBuf_fst_length (n : Nat) (s : List Nat) :
    ((readBuf n s).1).length = n := by
  simp [readBuf]
  omega

theorem from_binary_ge_twelve {b : Nat} (h : 12 <= b) :
    TagType.from_binary b = none := by
  unfold TagType.from_binary
  split <;> first | rfl | omega

theorem read_primitive_ne_malformed (siz : Nat)
    (fromB : List Nat → Option Nat)
    (htot : ∀ d : List Nat, d.length = siz → (fromB d).isSome = true)
    (s : List Nat) :
    read_primitive siz fromB s ≠ Except.error Error.Malformed := by
  intro h
  simp only [read_primitive] at h
  rcases ho : fromB (readBuf siz s).1 with _ | x
  · have := htot _ (readBuf_fst_length siz s)
    rw [ho] at this
    simp at this
  · rw [ho] at h
    simp at h

/-! ## The claims -/

/-- C2.  Numeric codec inverse law: for every value of each supported
width (`i8`/`i16`/`i32`/`i64` and, through the same-width integer bit
pattern, `f32`/`f64`), `from_bytes (to_bytes x)` recovers `x` exactly,
bit for bit — in particular the `f32` patterns of `-0.0` and NaN. -/
theorem numeric_codec_inverse :
    (∀ u : Nat, u < 2 ^ 8 → i8_from_bytes (i8_to_bytes u) = some u) ∧
    (∀ u : Nat, u < 2 ^ 16 → i16_from_bytes (i16_to_bytes u) = some u) ∧
    (∀ u : Nat, u < 2 ^ 32 → i32_from_bytes (i32_to_bytes u) = some u) ∧
    (∀ u : Nat, u < 2 ^ 64 → i64_from_bytes (i64_to_bytes u) = some u) ∧
    (∀ u : Nat, u < 2 ^ 32 → f32_from_bytes (f32_to_bytes u) = some u) ∧
    (∀ u : Nat, u < 2 ^ 64 → f64_from_bytes (f64_to_bytes u) = some u) :=
  ⟨i8_round_trip, i16_round_trip, i32_round_trip, i64_round_trip,
   fun u hu => i32_round_trip u hu, fun u hu => i64_round_trip u hu⟩

/-- C2 witness: the `-0.0f` bit pattern `0x80000000`, a quiet-NaN pattern
`0x7FC00001`, and the `i16` test vector of the crate's own unit test. -/
theorem numeric_codec_inverse_witness :
    f32_from_bytes (f32_to_bytes (2 ^ 31)) = some (2 ^ 31) ∧
    f32_from_bytes (f32_to_bytes 0x7FC00001) = some 0x7FC00001 ∧
    i16_from_bytes (i16_to_bytes 0x1A2B) = some 0x1A2B :=
  ⟨numeric_codec_inverse.2.2.2.2.1 _ (by norm_num),
   numeric_codec_inverse.2.2.2.2.1 _ (by norm_num),
   numeric_codec_inverse.2.1 _ (by norm_num)⟩

/-- C7.  Length enforcement: `from_bytes` of every width returns `None`
whenever the slice length differs from that width. -/
theorem from_bytes_length_enforcement :
    (∀ d : List Nat, d.length ≠ 1 → i8_from_bytes d = none) ∧
    (∀ d : List Nat, d.length ≠ 2 → i16_from_bytes d = none) ∧
    (∀ d : List Nat, d.length ≠ 4 → i32_from_bytes d = none) ∧
    (∀ d : List Nat, d.length ≠ 8 → i64_from_bytes d = none) ∧
    (∀ d : List Nat, d.length ≠ 4 → f32_from_bytes d = none) ∧
    (∀ d : List Nat, d.length ≠ 8 → f64_from_bytes d = none) := by
  refine ⟨?_, ?_, ?_, ?_, ?_, ?_⟩ <;> intro d h <;>
    simp [i8_from_bytes, i16_from_bytes, i32_from_bytes, i64_from_bytes,
      f32_from_bytes, f64_from_bytes, h]

/-- C7 witness: a three-byte slice is rejected by the four-byte decoder,
and a five-byte slice by the four-byte decoder. -/
theorem from_bytes_length_enforcement_witness :
    i32_from_bytes [1, 2, 3] = none ∧
    i32_from_bytes [1, 2, 3, 4, 5] = none :=
  ⟨from_bytes_length_enforcement.2.2.1 _ (by norm_num),
   from_bytes_length_enforcement.2.2.1 _ (by norm_num)⟩

/-- C10.  Exact-width decoding is total: on any slice of exactly the
right length every `from_bytes` returns `Some`, and therefore the
`Malformed` branch of `read_primitive` — whose buffer always has exactly
the type's width — can never be taken, for any stream. -/
theorem exact_width_decoding_total :
    (∀ d : List Nat, d.length = 1 → (i8_from_bytes d).isSome = true) ∧
    (∀ d : List Nat, d.length = 2 → (i16_from_bytes d).isSome = true) ∧
    (∀ d : List Nat, d.length = 4 → (i32_from_bytes d).isSome = true) ∧
    (∀ d : List Nat, d.length = 8 → (i64_from_bytes d).isSome = true) ∧
    (∀ s : List Nat,
      read_primitive 1 i8_from_bytes s ≠ Except.error Error.Malformed) ∧
    (∀ s : List Nat,
      read_primitive 2 i16_from_bytes s ≠ Except.error Error.Malformed) ∧
    (∀ s : List Nat,
      read_primitive 4 i32_from_bytes s ≠ Except.error Error.Malformed) ∧
    (∀ s : List Nat,
      read_primitive 8 i64_from_bytes s ≠ Except.error Error.Malformed) ∧
    (∀ s : List Nat,
      read_primitive 4 f32_from_bytes s ≠ Except.error Error.Malformed) ∧
    (∀ s : List Nat,
      read_primitive 8 f64_from_bytes s ≠ Except.error Error.Malformed) := by
  have t1 : ∀ d : List Nat, d.length = 1 → (i8_from_bytes d).isSome = true := by
    intro d h; simp [i8_from_bytes, h]
  have t2 : ∀ d : List Nat, d.length = 2 → (i16_from_bytes d).isSome = true := by
    intro d h; simp [i16_from_bytes, h]
  have t4 : ∀ d : List Nat, d.length = 4 → (i32_from_bytes d).isSome = true := by
    intro d h; simp [i32_from_bytes, h]
  have t8 : ∀ d : List Nat, d.length = 8 → (i64_from_bytes d).isSome = true := by
    intro d h; simp [i64_from_bytes, h]
  exact ⟨t1, t2, t4, t8,
    read_primitive_ne_malformed 1 _ t1,
    read_primitive_ne_malformed 2 _ t2,
    read_primitive_ne_malformed 4 _ t4,
    read_primitive_ne_malformed 8 _ t8,
    read_primitive_ne_malformed 4 _ t4,
    read_primitive_ne_malformed 8 _ t8⟩

/-- C10 witness: a concrete exact-width slice decodes to `Some`, and
`read_primitive` does not report `Malformed` even on a 2-byte stream fed
to the 4-byte decoder. -/
theorem exact_width_decoding_total_witness :
    (i32_from_bytes [1, 2, 3, 4]).isSome = true ∧
    read_primitive 4 i32_from_bytes [1, 2] ≠ Except.error Error.Malformed :=
  ⟨exact_width_decoding_total.2.2.1 _ (by norm_num),
   exact_width_decoding_total.2.2.2.2.2.2.1 [1, 2]⟩

/-- C3 (the code, at the claim's failing input).  A short read is *not* a
structural failure: asking for a 4-byte `Int` from the 2-byte stream
`[0x01, 0x02]` succeeds with the zero-padded value `0x01020000`, because
`read_primitive` ignores the byte count returned by `read` and decodes
the pre-zeroed buffer, so `Error::Malformed` is never produced. -/
theorem short_read_zero_padded :
    read_value 1 TagType.Int [1, 2] =
      some (Run.ret (Except.ok (Tag.Int 16908288, []))) := rfl

/-- C4.  An unrecognized leading type-code byte (anything above 11) makes
`read_tag` return `Malformed` — no panic, no default tag. -/
theorem malformed_type_code (fuel b : Nat) (s : List Nat) (h : 12 <= b) :
    read_tag (fuel + 1) (b :: s)
      = some (Run.ret (Except.error Error.Malformed)) := by
  have hbuf : readBuf 1 (b :: s) = ([b], s) := by simp [readBuf]
  simp only [read_tag, hbuf, List.getD_cons_zero, from_binary_ge_twelve h]

/-- C4 witness: the first unrecognized code, 12, at the head of a
one-byte stream. -/
theorem malformed_type_code_witness :
    read_tag 1 [12] = some (Run.ret (Except.error Error.Malformed)) :=
  malformed_type_code 0 12 [] (by norm_num)

/-- C5.  `End` is never a value: `read_value` invoked with the `End` tag
type fails with `Malformed` on every stream, and `write_value` on
`Tag::End` fails with `Invalid` and emits no bytes. -/
theorem end_never_a_value :
    (∀ fuel : Nat, ∀ s : List Nat,
      read_value (fuel + 1) TagType.End s =
        some (Run.ret (Except.error Error.Malformed))) ∧
    write_value Tag.End = (Except.error Error.Invalid, []) := by
  constructor
  · intro fuel s
    simp [read_value]
  · simp [write_value]

/-- C8 counterexample: the crate maps `TagType::String` to byte code 8
(7 is `ByteArray`), so the claimed `String=7` is false. -/
theorem type_code_string_is_eight_not_seven :
    TagType.to_binary TagType.String = 8 ∧
    TagType.to_binary TagType.String ≠ 7 := by
  constructor
  · rfl
  · intro h
    simp [TagType.to_binary] at h

/-- C8 (amended).  The canonical type-code mapping used by encoder and
decoder is End=0, Byte=1, Short=2, Int=3, Long=4, Float=5, Double=6,
ByteArray=7, String=8, List=9, Compound=10, IntArray=11, and
`from_binary` inverts `to_binary` on every tag type, so the two
directions agree. -/
theorem type_code_mapping :
    TagType.to_binary TagType.End = 0 ∧
    TagType.to_binary TagType.Byte = 1 ∧
    TagType.to_binary TagType.Short = 2 ∧
    TagType.to_binary TagType.Int = 3 ∧
    TagType.to_binary TagType.Long = 4 ∧
    TagType.to_binary TagType.Float = 5 ∧
    TagType.to_binary TagType.Double = 6 ∧
    TagType.to_binary TagType.ByteArray = 7 ∧
    TagType.to_binary TagType.String = 8 ∧
    TagType.to_binary TagType.List = 9 ∧
    TagType.to_binary TagType.Compound = 10 ∧
    TagType.to_binary TagType.IntArray = 11 ∧
    (∀ t : TagType, TagType.from_binary t.to_binary = some t) :=
  ⟨rfl, rfl, rfl, rfl, rfl, rfl, rfl, rfl, rfl, rfl, rfl, rfl,
   from_binary_to_binary⟩

/-- C9 counterexample: with element type code 1 (`Byte`) and count bytes
`FF FF FF FF` (the `i32` `-1`), `read_value` does not succeed with an
empty `List` — it panics at `Vec::with_capacity(len as usize)`
(decode.rs:75) before the element loop could run; likewise the same four
bytes as an `IntArray` length panic at decode.rs:103 instead of yielding
an empty `IntArray`. -/
theorem negative_count_not_empty :
    read_value 2 TagType.List [1, 255, 255, 255, 255] = some Run.panicked ∧
    read_value 1 TagType.IntArray [255, 255, 255, 255] = some Run.panicked ∧
    (some Run.panicked : Option (Run (Tag × List Nat)))
      ≠ some (Run.ret (Except.ok (Tag.List TagType.Byte [], []))) ∧
    (some Run.panicked : Option (Run (Tag × List Nat)))
      ≠ some (Run.ret (Except.ok (Tag.IntArray [], []))) := by
  refine ⟨rfl, rfl, by simp, by simp⟩

/-- C9 (amended).  A recognized element-type code followed by a negative
32-bit element count makes `read_value` panic with a capacity overflow:
the sign-extended `len as usize` passed to `Vec::with_capacity` exceeds
`isize::MAX`, and the panic happens before the `for _ in 0..len` loop
(which would have iterated zero times) is reached.  A negative `IntArray`
length panics the same way.  `read_value` never returns an empty
container for a negative count. -/
theorem negative_count_panics (fuel : Nat) {et : Nat} {tt : TagType}
    (b0 b1 b2 b3 : Nat) (rest : List Nat)
    (het : TagType.from_binary et = some tt) (h128 : 128 <= b0)
    (h0 : b0 < 256) (h1 : b1 < 256) (h2 : b2 < 256) (h3 : b3 < 256) :
    read_value (fuel + 1) TagType.List (et :: b0 :: b1 :: b2 :: b3 :: rest)
      = some Run.panicked ∧
    read_value (fuel + 1) TagType.IntArray (b0 :: b1 :: b2 :: b3 :: rest)
      = some Run.panicked := by
  have e2 : read_primitive 4 i32_from_bytes (b0 :: b1 :: b2 :: b3 :: rest)
      = Except.ok (b0 * 2 ^ 24 + (b1 * 2 ^ 16 + (b2 * 2 ^ 8 + b3)), rest) := by
    have hbuf := readBuf_exact
      (show ([b0, b1, b2, b3] : List Nat).length = 4 from rfl) rest
    simp only [List.cons_append, List.nil_append] at hbuf
    simp only [read_primitive, hbuf, i32_from_bytes, List.length_cons,
      List.length_nil, List.getD_cons_zero, List.getD_cons_succ]
    rw [if_pos trivial, Nat.lor_assoc, Nat.lor_assoc,
        shiftLeft_lor_eq (show b3 < 2 ^ 8 by omega),
        shiftLeft_lor_eq (show b2 * 2 ^ 8 + b3 < 2 ^ 16 by omega),
        shiftLeft_lor_eq
          (show b1 * 2 ^ 16 + (b2 * 2 ^ 8 + b3) < 2 ^ 24 by omega)]
  have hcap : capacityOverflow
      (i32_as_usize (b0 * 2 ^ 24 + (b1 * 2 ^ 16 + (b2 * 2 ^ 8 + b3))))
      = true := by
    rw [i32_as_usize_neg (by omega)]
    exact capacityOverflow_holds (by omega)
  constructor
  · have e1 : read_primitive 1 i8_from_bytes
        (et :: b0 :: b1 :: b2 :: b3 :: rest)
        = Except.ok (et, b0 :: b1 :: b2 :: b3 :: rest) := by
      have hbuf : readBuf 1 (et :: b0 :: b1 :: b2 :: b3 :: rest)
          = ([et], b0 :: b1 :: b2 :: b3 :: rest) := by simp [readBuf]
      simp [read_primitive, hbuf, i8_from_bytes]
    simp only [read_value, e1, e2, het, hcap, if_true]
  · simp only [read_value, e2, hcap, if_true]

/-- C9 witness: element type `Byte` (code 1) with count bytes
`FF FF FF FF` (`-1` as an `i32`), and the same four bytes as an
`IntArray` length; both panic. -/
theorem negative_count_panics_witness :
    read_value 1 TagType.List [1, 255, 255, 255, 255] = some Run.panicked ∧
    read_value 1 TagType.IntArray [255, 255, 255, 255] = some Run.panicked :=
  negative_count_panics 0 255 255 255 255 [] rfl (by norm_num)
    (by norm_num) (by norm_num) (by norm_num) (by norm_num)

/-- If every tag in `ts1` writes successfully and `t` fails, the list
loop of `write_value` stops at `t`: the emitted bytes are exactly those
of `ts1` followed by whatever `t` emitted before failing, and nothing of
`ts2` reaches the sink. -/
theorem write_values_fail (ts1 : List Tag) (t : Tag) (ts2 : List Tag)
    (e : Error) (h1 : ∀ x ∈ ts1, (write_value x).1 = Except.ok ())
    (h2 : (write_value t).1 = Except.error e) :
    write_values (ts1 ++ t :: ts2) =
      (Except.error e, (write_values ts1).2 ++ (write_value t).2) := by
  induction ts1 with
  | nil =>
    rcases hw : write_value t with ⟨r1, out⟩
    rw [hw] at h2
    simp only at h2
    subst h2
    simp [write_values, hw]
  | cons a ts ih =>
    have ha := h1 a (by simp)
    rcases hw : write_value a with ⟨ra, outa⟩
    rw [hw] at ha
    simp only at ha
    subst ha
    have ih2 := ih (fun x hx => h1 x (by simp [hx]))
    simp only [List.cons_append, write_values, hw, ih2, List.append_assoc]

/-- C6 counterexample: encoding the named tag `("", List<Byte>[Byte 1,
End])` fails with `Invalid` (a nested `Tag::End` value), yet the sink has
already received the type code, name, list header and first element —
its contents are not unchanged. -/
theorem encode_not_atomic :
    (write_tag [] (Tag.List TagType.Byte [Tag.Byte 1, Tag.End])).1
      = Except.error Error.Invalid ∧
    (write_tag [] (Tag.List TagType.Byte [Tag.Byte 1, Tag.End])).2
      = [9, 0, 0, 1, 0, 0, 0, 2, 1] ∧
    [9, 0, 0, 1, 0, 0, 0, 2, 1] ≠ ([] : List Nat) := by
  refine ⟨?_, ?_, by simp⟩ <;>
    simp [write_tag, write_value, write_values, write_string,
      i8_to_bytes, i16_to_bytes, i32_to_bytes, Tag.get_type,
      TagType.to_binary]

/-- C6 (amended).  Encoding is fail-fast but not atomic: when a value
nested in a list fails to serialize, `write_tag` stops at the first
failure and the sink keeps exactly the bytes emitted before it — the
top-level header, the name, the list header, the successfully written
elements, and the failing element's own partial output; nothing after
the failure is written, and nothing already written is rolled back. -/
theorem encode_fail_fast (name : List Nat) (et : TagType) (ts1 : List Tag)
    (t : Tag) (ts2 : List Tag) (e : Error)
    (h1 : ∀ x ∈ ts1, (write_value x).1 = Except.ok ())
    (h2 : (write_value t).1 = Except.error e) :
    write_tag name (Tag.List et (ts1 ++ t :: ts2)) =
      (Except.error e,
        i8_to_bytes (TagType.List).to_binary ++ write_string name ++
          (i8_to_bytes et.to_binary ++
            i32_to_bytes ((ts1 ++ t :: ts2).length % 2 ^ 32) ++
            ((write_values ts1).2 ++ (write_value t).2))) := by
  simp only [write_tag, write_value, write_values_fail ts1 t ts2 e h1 h2,
    Tag.get_type]

/-- C6 witness: the failing encode of `("", List<Byte>[Byte 1, End,
Byte 2])` leaves exactly the header plus the first element on the sink;
the element after the failure point is never written. -/
theorem encode_fail_fast_witness :
    write_tag [] (Tag.List TagType.Byte [Tag.Byte 1, Tag.End, Tag.Byte 2])
      = (Except.error Error.Invalid, [9, 0, 0, 1, 0, 0, 0, 3, 1]) := by
  have h := encode_fail_fast [] TagType.Byte [Tag.Byte 1] Tag.End
    [Tag.Byte 2] Error.Invalid
    (by
      intro x hx
      simp only [List.mem_singleton] at hx
      subst hx
      simp [write_value])
    (by simp [write_value])
  simpa [write_values, write_value, write_string, i8_to_bytes,
    i16_to_bytes, i32_to_bytes, TagType.to_binary] using h

/-! ## Round-trip: decoding inverts encoding on valid trees -/

theorem get_type_eq_end_iff (t : Tag) :
    t.get_type = TagType.End ↔ t = Tag.End := by
  cases t <;> simp [Tag.get_type]

theorem read_tag_end (f : Nat) (rest : List Nat) :
    read_tag (f + 1) (0 :: rest)
      = some (Run.ret (Except.ok (([], Tag.End), rest))) := by
  have hbuf : readBuf 1 (0 :: rest) = ([0], rest) := by simp [readBuf]
  simp [read_tag, hbuf, TagType.from_binary]

theorem read_compound_step_end (fuel : Nat) (s s' : List Nat)
    (acc : List (List Nat × Tag)) (nm : List Nat)
    (h : read_tag fuel s = some (Run.ret (Except.ok ((nm, Tag.End), s')))) :
    read_compound (fuel + 1) s acc
      = some (Run.ret (Except.ok (Tag.Compound acc, s'))) := by
  simp only [read_compound, h]

theorem read_compound_step (fuel : Nat) (s s' : List Nat)
    (acc : List (List Nat × Tag)) (nm : List Nat) (v : Tag)
    (hne : v ≠ Tag.End)
    (h : read_tag fuel s = some (Run.ret (Except.ok ((nm, v), s')))) :
    read_compound (fuel + 1) s acc
      = read_compound fuel s' (mapInsert acc nm v) := by
  cases v
  case End => exact absurd rfl hne
  all_goals simp only [read_compound, h]

theorem read_int_elems_inv (xs : List Nat) (hx : ∀ x ∈ xs, x < 2 ^ 32)
    (rest : List Nat) :
    read_int_elems xs.length ((xs.map i32_to_bytes).flatten ++ rest)
      = Except.ok (xs, rest) := by
  induction xs with
  | nil => simp [read_int_elems]
  | cons a xs ih =>
    simp only [List.map_cons, List.flatten_cons, List.append_assoc,
      List.length_cons, read_int_elems,
      read_primitive_i32 (hx a (by simp)) _,
      ih (fun x hxx => hx x (by simp [hxx]))]

mutual

theorem read_value_inv : (t : Tag) → t.valid = true → (fuel : Nat) →
    t.fuelNeeded <= fuel → (rest : List Nat) →
    read_value fuel t.get_type ((write_value t).2 ++ rest)
      = some (Run.ret (Except.ok (t, rest)))
  | Tag.End, h, _, _, _ => by simp [Tag.valid, Tag.specValid] at h
  | Tag.Byte x, h, fuel, hf, rest => by
    obtain ⟨f, rfl⟩ : ∃ f, fuel = f + 1 :=
      ⟨fuel - 1, by simp [Tag.fuelNeeded] at hf; omega⟩
    have hx : x < 2 ^ 8 := by
      simp [Tag.valid, Tag.rustInv, Tag.specValid, Tag.lenBound] at h
      exact h
    simp only [Tag.get_type, write_value, read_value,
      read_primitive_i8 hx rest, Except.map]
  | Tag.Short x, h, fuel, hf, rest => by
    obtain ⟨f, rfl⟩ : ∃ f, fuel = f + 1 :=
      ⟨fuel - 1, by simp [Tag.fuelNeeded] at hf; omega⟩
    have hx : x < 2 ^ 16 := by
      simp [Tag.valid, Tag.rustInv, Tag.specValid, Tag.lenBound] at h
      exact h
    simp only [Tag.get_type, write_value, read_value,
      read_primitive_i16 hx rest, Except.map]
  | Tag.Int x, h, fuel, hf, rest => by
    obtain ⟨f, rfl⟩ : ∃ f, fuel = f + 1 :=
      ⟨fuel - 1, by simp [Tag.fuelNeeded] at hf; omega⟩
    have hx : x < 2 ^ 32 := by
      simp [Tag.valid, Tag.rustInv, Tag.specValid, Tag.lenBound] at h
      exact h
    simp only [Tag.get_type, write_value, read_value,
      read_primitive_i32 hx rest, Except.map]
  | Tag.Long x, h, fuel, hf, rest => by
    obtain ⟨f, rfl⟩ : ∃ f, fuel = f + 1 :=
      ⟨fuel - 1, by simp [Tag.fuelNeeded] at hf; omega⟩
    have hx : x < 2 ^ 64 := by
      simp [Tag.valid, Tag.rustInv, Tag.specValid, Tag.lenBound] at h
      exact h
    simp only [Tag.get_type, write_value, read_value,
      read_primitive_i64 hx rest, Except.map]
  | Tag.Float x, h, fuel, hf, rest => by
    obtain ⟨f, rfl⟩ : ∃ f, fuel = f + 1 :=
      ⟨fuel - 1, by simp [Tag.fuelNeeded] at hf; omega⟩
    have hx : x < 2 ^ 32 := by
      simp [Tag.valid, Tag.rustInv, Tag.specValid, Tag.lenBound] at h
      exact h
    simp only [Tag.get_type, write_value, read_value,
      read_primitive_f32 hx rest, Except.map]
  | Tag.Double x, h, fuel, hf, rest => by
    obtain ⟨f, rfl⟩ : ∃ f, fuel = f + 1 :=
      ⟨fuel - 1, by simp [Tag.fuelNeeded] at hf; omega⟩
    have hx : x < 2 ^ 64 := by
      simp [Tag.valid, Tag.rustInv, Tag.specValid, Tag.lenBound] at h
      exact h
    simp only [Tag.get_type, write_value, read_value,
      read_primitive_f64 hx rest, Except.map]
  | Tag.String str, h, fuel, hf, rest => by
    obtain ⟨f, rfl⟩ : ∃ f, fuel = f + 1 :=
      ⟨fuel - 1, by simp [Tag.fuelNeeded] at hf; omega⟩
    have hlen : str.length <= 32767 := by
      simp [Tag.valid, Tag.rustInv, Tag.specValid, Tag.lenBound] at h
      exact h.2
    simp only [Tag.get_type, write_value, read_value,
      read_string_inv hlen rest, Except.map]
  | Tag.ByteArray bs, h, fuel, hf, rest => by
    obtain ⟨f, rfl⟩ : ∃ f, fuel = f + 1 :=
      ⟨fuel - 1, by simp [Tag.fuelNeeded] at hf; omega⟩
    have hlen : bs.length < 2 ^ 31 := by
      simp [Tag.valid, Tag.rustInv, Tag.specValid, Tag.lenBound] at h
      exact h.2
    have hmod : bs.length % 2 ^ 32 = bs.length := Nat.mod_eq_of_lt (by omega)
    simp only [Tag.get_type, write_value, read_value, List.append_assoc,
      read_primitive_i32 (show bs.length % 2 ^ 32 < 2 ^ 32 by omega) _]
    rw [hmod, i32_as_usize, if_pos hlen,
      if_neg (not_capacityOverflow (by omega)),
      readBuf_exact (rfl : bs.length = bs.length) rest]
  | Tag.IntArray xs, h, fuel, hf, rest => by
    obtain ⟨f, rfl⟩ : ∃ f, fuel = f + 1 :=
      ⟨fuel - 1, by simp [Tag.fuelNeeded] at hf; omega⟩
    have hx : ∀ x ∈ xs, x < 2 ^ 32 := by
      simp [Tag.valid, Tag.rustInv, Tag.specValid, Tag.lenBound] at h
      exact h.1
    have hlen : xs.length < 2 ^ 31 := by
      simp [Tag.valid, Tag.rustInv, Tag.specValid, Tag.lenBound] at h
      exact h.2
    have hmod : xs.length % 2 ^ 32 = xs.length := Nat.mod_eq_of_lt (by omega)
    have hcnt : i32_loop_count xs.length = xs.length := by
      rw [i32_loop_count, if_pos hlen]
    have husize : i32_as_usize xs.length = xs.length := by
      rw [i32_as_usize, if_pos hlen]
    simp only [Tag.get_type, write_value, read_value, List.append_assoc, hmod,
      read_primitive_i32 (show xs.length < 2 ^ 32 by omega) _, husize]
    rw [if_neg (not_capacityOverflow (by omega))]
    simp only [hcnt, read_int_elems_inv xs hx rest]
  | Tag.List et elems, h, fuel, hf, rest => by
    obtain ⟨f, rfl⟩ : ∃ f, fuel = f + 1 := ⟨fuel - 1, by
      simp only [Tag.fuelNeeded] at hf
      omega⟩
    have hf2 : elemsFuel elems <= f := by
      simp only [Tag.fuelNeeded] at hf
      omega
    have hlen : elems.length < 2 ^ 31 := by
      simp only [Tag.valid, Tag.lenBound, Bool.and_eq_true,
        decide_eq_true_eq] at h
      exact h.2.1
    have hmod : elems.length % 2 ^ 32 = elems.length :=
      Nat.mod_eq_of_lt (by omega)
    have hcnt : i32_loop_count elems.length = elems.length := by
      rw [i32_loop_count, if_pos hlen]
    have htb : i8_to_bytes et.to_binary = [et.to_binary] := by
      simp [i8_to_bytes, Nat.mod_eq_of_lt (to_binary_lt et)]
    have hp1 : read_primitive 1 i8_from_bytes
        (et.to_binary :: (i32_to_bytes elems.length ++
          ((write_values elems).2 ++ rest)))
        = Except.ok (et.to_binary,
            i32_to_bytes elems.length ++
              ((write_values elems).2 ++ rest)) := by
      have hbuf : readBuf 1 (et.to_binary :: (i32_to_bytes
          elems.length ++ ((write_values elems).2 ++ rest)))
          = ([et.to_binary], i32_to_bytes elems.length ++
              ((write_values elems).2 ++ rest)) := by
        simp [readBuf]
      simp only [read_primitive, hbuf, i8_from_bytes, List.length_cons,
        List.length_nil, List.getD_cons_zero]
      rw [if_pos trivial]
    have husize : i32_as_usize elems.length = elems.length := by
      rw [i32_as_usize, if_pos hlen]
    simp only [Tag.get_type, write_value, read_value, List.append_assoc,
      htb, List.cons_append, List.nil_append, hmod, hp1,
      read_primitive_i32 (show elems.length < 2 ^ 32 by omega) _,
      from_binary_to_binary, husize]
    rw [if_neg (not_capacityOverflow (by omega))]
    simp only [hcnt,
      read_list_elems_inv et elems (valid_list_elem h) f hf2 rest]
  | Tag.Compound es, h, fuel, hf, rest => by
    obtain ⟨f, rfl⟩ : ∃ f, fuel = f + 1 := ⟨fuel - 1, by
      simp only [Tag.fuelNeeded] at hf
      omega⟩
    have hf2 : entriesFuel es <= f := by
      simp only [Tag.fuelNeeded] at hf
      omega
    have hok := write_entries_ok es (fun p hp => (valid_compound_entry h p hp).1)
    rcases hw : write_entries es with ⟨r1, out⟩
    rw [hw] at hok
    simp only at hok
    subst hok
    have hbytes : (write_value (Tag.Compound es)).2 = out ++ [0] := by
      simp [write_value, hw, i8_to_bytes]
    rw [hbytes]
    have hstep := read_compound_inv es [] (valid_compound_entry h)
      (valid_compound_nodup h) (by intro q hq; cases hq) f hf2 rest
    rw [hw] at hstep
    simp only [List.nil_append] at hstep
    simp only [Tag.get_type, read_value, List.append_assoc,
      List.cons_append, List.nil_append]
    exact hstep

theorem read_list_elems_inv : (et : TagType) → (ts : List Tag) →
    (∀ x ∈ ts, x.valid = true ∧ x.get_type = et) → (fuel : Nat) →
    elemsFuel ts <= fuel → (rest : List Nat) →
    read_list_elems fuel et ts.length ((write_values ts).2 ++ rest)
      = some (Run.ret (Except.ok (ts, rest)))
  | _, [], _, fuel, hf, rest => by
    obtain ⟨f, rfl⟩ : ∃ f, fuel = f + 1 :=
      ⟨fuel - 1, by simp [elemsFuel] at hf; omega⟩
    simp [write_values, read_list_elems]
  | et, t :: ts, h, fuel, hf, rest => by
    obtain ⟨f, rfl⟩ : ∃ f, fuel = f + 1 :=
      ⟨fuel - 1, by simp only [elemsFuel] at hf; omega⟩
    have ht := h t (by simp)
    have hok := write_value_ok t ht.1
    rcases hw : write_value t with ⟨r1, outt⟩
    rw [hw] at hok
    simp only at hok
    subst hok
    have hval : read_value f et (outt ++ ((write_values ts).2 ++ rest))
        = some (Run.ret (Except.ok (t, (write_values ts).2 ++ rest))) := by
      have := read_value_inv t ht.1 f
        (by simp only [elemsFuel] at hf; omega)
        ((write_values ts).2 ++ rest)
      rw [hw, ht.2] at this
      exact this
    have hrest := read_list_elems_inv et ts
      (fun x hx => h x (by simp [hx])) f
      (by simp only [elemsFuel] at hf; omega) rest
    simp only [write_values, hw, List.length_cons, read_list_elems,
      List.append_assoc, hval, hrest]

theorem read_compound_inv : (es : List (List Nat × Tag)) →
    (acc : List (List Nat × Tag)) →
    (∀ p ∈ es, p.2.valid = true ∧ p.1.length <= 32767) →
    ((es.map Prod.fst).Nodup) →
    (∀ q ∈ acc, ∀ p ∈ es, q.1 ≠ p.1) →
    (fuel : Nat) → entriesFuel es <= fuel → (rest : List Nat) →
    read_compound fuel ((write_entries es).2 ++ 0 :: rest) acc
      = some (Run.ret (Except.ok (Tag.Compound (acc ++ es), rest)))
  | [], acc, _, _, _, fuel, hf, rest => by
    obtain ⟨f, rfl⟩ : ∃ f, fuel = f + 1 :=
      ⟨fuel - 1, by simp [entriesFuel] at hf; omega⟩
    obtain ⟨f2, rfl⟩ : ∃ f2, f = f2 + 1 :=
      ⟨f - 1, by simp [entriesFuel] at hf; omega⟩
    have hw : (write_entries ([] : List (List Nat × Tag))).2 = [] := by
      simp [write_entries]
    rw [hw, List.nil_append,
      read_compound_step_end (f2 + 1) (0 :: rest) rest acc []
        (read_tag_end f2 rest)]
    simp
  | (n, v) :: es, acc, h, hnodup, hdisj, fuel, hf, rest => by
    obtain ⟨f, rfl⟩ : ∃ f, fuel = f + 1 :=
      ⟨fuel - 1, by simp only [entriesFuel] at hf; omega⟩
    have hv := h (n, v) (by simp)
    have hok := write_tag_ok n v hv.1
    rcases hw : write_tag n v with ⟨r1, outv⟩
    rw [hw] at hok
    simp only at hok
    subst hok
    have htag : read_tag f (outv ++ ((write_entries es).2 ++ 0 :: rest))
        = some (Run.ret (Except.ok ((n, v),
            (write_entries es).2 ++ 0 :: rest))) := by
      have := read_tag_inv n v hv.2 hv.1 f
        (by simp only [entriesFuel] at hf; omega)
        ((write_entries es).2 ++ 0 :: rest)
      rw [hw] at this
      exact this
    have hne := valid_not_end hv.1
    have hfresh : ∀ p ∈ acc, p.1 ≠ n := by
      intro p hp
      exact hdisj p hp (n, v) (by simp)
    have hnodup2 : (es.map Prod.fst).Nodup := by
      simp only [List.map_cons, List.nodup_cons] at hnodup
      exact hnodup.2
    have hnmem : n ∉ es.map Prod.fst := by
      simp only [List.map_cons, List.nodup_cons] at hnodup
      exact hnodup.1
    have hdisj2 : ∀ q ∈ acc ++ [(n, v)], ∀ p ∈ es, q.1 ≠ p.1 := by
      intro q hq p hp
      rcases List.mem_append.mp hq with hq | hq
      · exact hdisj q hq p (by simp [hp])
      · simp only [List.mem_singleton] at hq
        subst hq
        show n ≠ p.1
        intro he
        exact hnmem (by
          rw [he]
          exact List.mem_map.mpr ⟨p, hp, rfl⟩)
    have hrec := read_compound_inv es (acc ++ [(n, v)])
      (fun p hp => h p (by simp [hp])) hnodup2 hdisj2 f
      (by simp only [entriesFuel] at hf; omega) rest
    have hstep := read_compound_step f
      (outv ++ ((write_entries es).2 ++ 0 :: rest))
      ((write_entries es).2 ++ 0 :: rest) acc n v hne htag
    rw [mapInsert_fresh v hfresh] at hstep
    calc read_compound (f + 1)
          ((write_entries ((n, v) :: es)).2 ++ 0 :: rest) acc
        = read_compound (f + 1)
            (outv ++ ((write_entries es).2 ++ 0 :: rest)) acc := by
          simp only [write_entries, hw, List.append_assoc]
      _ = read_compound f ((write_entries es).2 ++ 0 :: rest)
            (acc ++ [(n, v)]) := hstep
      _ = some (Run.ret
            (Except.ok (Tag.Compound ((acc ++ [(n, v)]) ++ es), rest))) :=
          hrec
      _ = some (Run.ret
            (Except.ok (Tag.Compound (acc ++ (n, v) :: es), rest))) := by
          simp

theorem read_tag_inv : (name : List Nat) → (v : Tag) →
    name.length <= 32767 → v.valid = true → (fuel : Nat) →
    v.fuelNeeded + 1 <= fuel → (rest : List Nat) →
    read_tag fuel ((write_tag name v).2 ++ rest)
      = some (Run.ret (Except.ok ((name, v), rest)))
  | name, v, hn, hv, fuel, hf, rest => by
    obtain ⟨f, rfl⟩ : ∃ f, fuel = f + 1 := ⟨fuel - 1, by omega⟩
    have htb : i8_to_bytes v.get_type.to_binary
        = [v.get_type.to_binary] := by
      simp [i8_to_bytes, Nat.mod_eq_of_lt (to_binary_lt _)]
    have hne : v.get_type ≠ TagType.End := by
      intro he
      exact valid_not_end hv ((get_type_eq_end_iff v).mp he)
    have hbuf : readBuf 1 (v.get_type.to_binary ::
        (write_string name ++ ((write_value v).2 ++ rest)))
        = ([v.get_type.to_binary],
           write_string name ++ ((write_value v).2 ++ rest)) := by
      simp [readBuf]
    have hval := read_value_inv v hv f (by omega) rest
    simp only [write_tag, htb, List.append_assoc, List.cons_append,
      List.nil_append, read_tag, hbuf, List.getD_cons_zero,
      from_binary_to_binary, if_neg hne,
      read_string_inv hn ((write_value v).2 ++ rest), hval]

end

/-- C1 (amended).  Round-trip: for every name of at most 32767 bytes and
every valid tag tree — valid in the claim's sense (homogeneous lists, no
`Tag::End` value, string lengths fitting the 16-bit field) and with every
`List`/`ByteArray`/`IntArray` shorter than `2 ^ 31` elements — encoding
the named tag and decoding the produced bytes yields the identical named
tag, including empty-list element types and exact `Float`/`Double` bit
patterns. -/
theorem round_trip (name : List Nat) (t : Tag) (fuel : Nat)
    (hname : name.length <= 32767) (hvalid : t.valid = true)
    (hfuel : t.fuelNeeded + 1 <= fuel) :
    (write_tag name t).1 = Except.ok () ∧
    read_tag fuel ((write_tag name t).2)
      = some (Run.ret (Except.ok ((name, t), []))) := by
  constructor
  · exact write_tag_ok name t hvalid
  · have h := read_tag_inv name t hname hvalid fuel hfuel []
    rw [List.append_nil] at h
    exact h

/-- C1 witness: a compound holding an `Int`, the `-0.0f` bit pattern, a
NaN `f64` bit pattern, a homogeneous `Short` list, and an empty list of
declared element type `End`, round-trips bit-exactly. -/
theorem round_trip_witness :
    (write_tag [78] (Tag.Compound
      [([97], Tag.Int 5),
       ([102], Tag.Float (2 ^ 31)),
       ([110], Tag.Double 0x7FF8000000000001),
       ([108], Tag.List TagType.Short [Tag.Short 1, Tag.Short 2, Tag.Short 3]),
       ([101], Tag.List TagType.End [])])).1 = Except.ok () ∧
    read_tag 100 ((write_tag [78] (Tag.Compound
      [([97], Tag.Int 5),
       ([102], Tag.Float (2 ^ 31)),
       ([110], Tag.Double 0x7FF8000000000001),
       ([108], Tag.List TagType.Short [Tag.Short 1, Tag.Short 2, Tag.Short 3]),
       ([101], Tag.List TagType.End [])])).2)
      = some (Run.ret (Except.ok (([78], Tag.Compound
      [([97], Tag.Int 5),
       ([102], Tag.Float (2 ^ 31)),
       ([110], Tag.Double 0x7FF8000000000001),
       ([108], Tag.List TagType.Short [Tag.Short 1, Tag.Short 2, Tag.Short 3]),
       ([101], Tag.List TagType.End [])]), []))) :=
  round_trip [78] _ 100 (by norm_num)
    (by
      simp [Tag.valid, Tag.rustInv, Tag.specValid, Tag.lenBound,
        rustInvElems, rustInvEntries, specValidElems, specValidEntries,
        lenBoundElems, lenBoundEntries, Tag.get_type])
    (by
      simp [Tag.fuelNeeded, elemsFuel, entriesFuel])

/-- The bytes `write_tag` emits for the named tag
`("", ByteArray(vec![0; 2^31]))`: type code 7, empty name, the length
`2 ^ 31` wrapped through `as i32` into `80 00 00 00`, then the raw
bytes. -/
theorem oversize_bytes :
    (write_tag [] (Tag.ByteArray (List.replicate (2 ^ 31) 0))).2
      = 7 :: 0 :: 0 :: 128 :: 0 :: 0 :: 0 :: List.replicate (2 ^ 31) 0 := by
  have hlm : (List.replicate (2 ^ 31) (0 : Nat)).length % 2 ^ 32 = 2 ^ 31 := by
    rw [List.length_replicate]
    norm_num
  have h32 : i32_to_bytes (2 ^ 31) = [128, 0, 0, 0] := by
    norm_num [i32_to_bytes, Nat.shiftRight_eq_div_pow]
  have h16 : i16_to_bytes (List.length ([] : List Nat) % 2 ^ 16) = [0, 0] := by
    norm_num [i16_to_bytes, Nat.shiftRight_eq_div_pow]
  have h8 : i8_to_bytes (TagType.ByteArray).to_binary = [7] := by
    norm_num [i8_to_bytes, TagType.to_binary]
  simp only [write_tag, write_value, write_string, Tag.get_type, h8, h16,
    hlm, h32, List.cons_append, List.nil_append, List.append_nil]

theorem le_length_cons1 (x : Nat) (L : List Nat) : 1 <= (x :: L).length :=
  Nat.succ_le_succ (Nat.zero_le _)

theorem le_length_cons2 (x y : Nat) (L : List Nat) :
    2 <= (x :: y :: L).length :=
  Nat.succ_le_succ (le_length_cons1 y L)

theorem le_length_cons4 (a b c d : Nat) (L : List Nat) :
    4 <= (a :: b :: c :: d :: L).length :=
  Nat.succ_le_succ (Nat.succ_le_succ (Nat.succ_le_succ (le_length_cons1 d L)))

/-- Reading a named tag whose header is type code 7 (ByteArray), an empty
name, and the length bytes `80 00 00 00` (the `i32` `-2 ^ 31`): the
`as usize` sign extension turns the length into
`2 ^ 64 - 2 ^ 32 + 2 ^ 31 > isize::MAX`, so `vec![0_u8; len as usize]`
panics with a capacity overflow, whatever follows in the stream. -/
theorem read_tag_bytearray_neg (f : Nat) (s : List Nat) :
    read_tag (f + 2) (7 :: 0 :: 0 :: 128 :: 0 :: 0 :: 0 :: s)
      = some Run.panicked := by
  have hb1 : readBuf 1 (7 :: 0 :: 0 :: 128 :: 0 :: 0 :: 0 :: s)
      = ([7], 0 :: 0 :: 128 :: 0 :: 0 :: 0 :: s) := by
    rw [readBuf_of_le (le_length_cons1 _ _)]
    rfl
  have hb2 : readBuf 2 (0 :: 0 :: 128 :: 0 :: 0 :: 0 :: s)
      = ([0, 0], 128 :: 0 :: 0 :: 0 :: s) := by
    rw [readBuf_of_le (le_length_cons2 _ _ _)]
    rfl
  have hb4 : readBuf 4 (128 :: 0 :: 0 :: 0 :: s)
      = ([128, 0, 0, 0], s) := by
    rw [readBuf_of_le (le_length_cons4 _ _ _ _ _)]
    rfl
  have h4 : i32_from_bytes [128, 0, 0, 0] = some (2 ^ 31) := by
    simp [i32_from_bytes, Nat.shiftLeft_eq]
  have hcap : capacityOverflow (i32_as_usize (2 ^ 31)) = true := by
    rw [i32_as_usize_neg (by norm_num)]
    exact capacityOverflow_holds (by norm_num)
  show read_tag (f + 1 + 1) _ = _
  simp only [read_tag, hb1, List.getD_cons_zero,
    show TagType.from_binary 7 = some TagType.ByteArray from rfl]
  rw [if_neg (show ¬ TagType.ByteArray = TagType.End by simp)]
  simp only [read_string, hb2, unwrapD,
    show i16_from_bytes [0, 0] = some 0 from rfl, Option.getD_some,
    show i16_as_usize 0 = 0 from rfl]
  rw [if_neg (show ¬ (0 : Nat) > 0 by omega)]
  simp only [read_value, read_primitive, hb4, h4, hcap, if_true]

/-- C1 counterexample: the tree `ByteArray(vec![0; 2 ^ 31])` is a real
Rust value and satisfies every validity condition the claim states
(no lists, no `End` value, no strings), yet decoding its encoding cannot
give it back: the length wraps to the negative `i32` `-2 ^ 31` on encode,
and the decoder's `vec![0_u8; len as usize]` panics with a capacity
overflow on the sign-extended length.  The claim's validity conditions
are missing a `< 2 ^ 31` bound on `List`/`ByteArray`/`IntArray`
lengths. -/
theorem round_trip_cex :
    Tag.rustInv (Tag.ByteArray (List.replicate (2 ^ 31) 0)) = true ∧
    Tag.specValid (Tag.ByteArray (List.replicate (2 ^ 31) 0)) = true ∧
    (write_tag [] (Tag.ByteArray (List.replicate (2 ^ 31) 0))).1
      = Except.ok () ∧
    read_tag 2 ((write_tag [] (Tag.ByteArray (List.replicate (2 ^ 31) 0))).2)
      = some Run.panicked ∧
    (some Run.panicked : Option (Run ((List Nat × Tag) × List Nat)))
      ≠ some (Run.ret (Except.ok
          (([], Tag.ByteArray (List.replicate (2 ^ 31) 0)), []))) := by
  have hinv : ∀ bs : List Nat, (∀ b ∈ bs, b < 256) →
      Tag.rustInv (Tag.ByteArray bs) = true := by
    intro bs hb
    simp only [Tag.rustInv, decide_eq_true_eq]
    exact hb
  have hspec : ∀ bs : List Nat, Tag.specValid (Tag.ByteArray bs) = true := by
    intro bs
    simp only [Tag.specValid]
  have hwr : ∀ bs : List Nat,
      (write_tag [] (Tag.ByteArray bs)).1 = Except.ok () := by
    intro bs
    simp only [write_tag, write_value]
  have hne : ∀ x : (List Nat × Tag) × List Nat,
      (some Run.panicked : Option (Run ((List Nat × Tag) × List Nat)))
        ≠ some (Run.ret (Except.ok x)) := by
    intro x h
    exact Run.noConfusion (Option.some.inj h)
  refine ⟨?_, hspec _, hwr _, ?_, hne _⟩
  · exact hinv _ (fun b hb => by
      rw [List.eq_of_mem_replicate hb]
      norm_num)
  · rw [oversize_bytes]
    exact read_tag_bytearray_neg 0 (List.replicate (2 ^ 31) 0)

end Nbt
